import Mathlib

/-!
Verification of the file-selection and filtering engine of `files_to_prompt/cli.py`.

The development shallowly embeds the Python source: the filesystem is an
inductive tree, the external `git` binary is an oracle record of its observable
outputs, and every function below is translated from the correspondingly named
function of `cli.py`.  Directory recursion is expressed with an explicit fuel
parameter (structural on `Nat`) so that every definition is executable by the
kernel; the wrapper `walkNode` supplies fuel larger than the tree size, and the
general theorems are proved for every fuel value.
-/

/-! ## Python string primitives used by the source -/

/-- Characters treated as whitespace by Python `str.strip()` (ASCII range,
which is all that arises for the strings handled by the tool). -/
def pyIsSpace (c : Char) : Bool :=
  c = ' ' || c = '\t' || c = '\n' || c = '\r' || c = '\x0b' || c = '\x0c'

/-- Python `str.strip()`: drop leading and trailing whitespace. -/
def pyStrip (s : String) : String :=
  String.mk (((s.data.dropWhile pyIsSpace).reverse.dropWhile pyIsSpace).reverse)

/-- Python `str.startswith(t)`. -/
def pyStartsWith (s t : String) : Bool :=
  t.data.isPrefixOf s.data

/-- Python `str.endswith(t)` for a single suffix. -/
def pyEndsWith (s t : String) : Bool :=
  t.data.isSuffixOf s.data

/-- Python `str.endswith(tuple)`: true when the string ends with at least one
of the listed suffixes.  Both call sites of the extension filter in the source
(`f.endswith(extensions)` in `process_path` and `rel.endswith(tuple(extensions))`
in the `--since` branch of `cli`) are this test. -/
def endswithAny (s : String) (suffixes : List String) : Bool :=
  suffixes.any (fun e => pyEndsWith s e)

/-- Lexicographic comparison of character lists by code point, as Python
compares strings. -/
def lexLeChars : List Char → List Char → Bool
  | [], _ => true
  | _ :: _, [] => false
  | x :: xs, y :: ys =>
    x.toNat < y.toNat || (x.toNat = y.toNat && lexLeChars xs ys)

/-- Python string `<=` (code-point lexicographic). -/
def strLe (a b : String) : Bool :=
  lexLeChars a.data b.data

/-- Stable insertion of one element into a sorted list. -/
def insertLe (le : α → α → Bool) (x : α) : List α → List α
  | [] => [x]
  | y :: ys => if le x y then x :: y :: ys else y :: insertLe le x ys

/-- Stable insertion sort; models Python `sorted` (a stable sort — the lists
sorted by the source have pairwise distinct keys, for which every stable sort
agrees). -/
def sortLe (le : α → α → Bool) : List α → List α
  | [] => []
  | x :: xs => insertLe le x (sortLe le xs)

/-- Split a string at every occurrence of a separator character, keeping empty
segments: Python `str.split(sep)` for a one-character separator. -/
def splitCharAux (sep : Char) : List Char → List Char → List String
  | [], acc => [String.mk acc.reverse]
  | c :: cs, acc =>
    if c = sep then String.mk acc.reverse :: splitCharAux sep cs []
    else splitCharAux sep cs (c :: acc)

def splitChar (s : String) (sep : Char) : List String :=
  splitCharAux sep s.data []

/-- POSIX `os.path.join(a, b)` for a relative second component, as used by the
source (`os.path.join(root, name)` with `name` a directory entry). -/
def pathJoin (a b : String) : String :=
  a ++ "/" ++ b

/-! ## `fnmatch.fnmatch`

Python's `fnmatch` translates the pattern to a regular expression and matches
the whole name: `*` matches any run of characters, `?` any single character,
`[seq]` a character class with ranges and `[!seq]` its negation, an
unterminated `[` a literal bracket.  On POSIX `os.path.normcase` is the
identity, so no case folding happens.  Both recursions below carry fuel so
they are executable by the kernel; the wrappers supply fuel that is
sufficient by construction (every step consumes at least one input
character). -/

inductive GlobTok where
  | star
  | qmark
  | cls (neg : Bool) (seq : List Char)
  | lit (c : Char)
deriving DecidableEq, Repr

/-- Scan to the closing `]` of a character class, returning the class body and
the rest of the pattern; `none` when the bracket is unterminated. -/
def splitClsBody : List Char → Option (List Char × List Char)
  | [] => none
  | ']' :: rest => some ([], rest)
  | c :: rest => (splitClsBody rest).map (fun p => (c :: p.1, p.2))

/-- Parse a character class after an opening `[`: an optional leading `!`
negates, and a `]` directly after `[` or `[!` belongs to the class body. -/
def splitCls (cs : List Char) : Option (Bool × List Char × List Char) :=
  let neg := match cs with | '!' :: _ => true | _ => false
  let cs1 := match cs with | '!' :: r => r | _ => cs
  match cs1 with
  | ']' :: r2 => (splitClsBody r2).map (fun p => (neg, ']' :: p.1, p.2))
  | _ => (splitClsBody cs1).map (fun p => (neg, p.1, p.2))

/-- Membership of a character in a class body, honouring `a-b` ranges (by code
point, as the translated regular expression does). -/
def inCls : List Char → Char → Bool
  | [], _ => false
  | a :: '-' :: b :: rest, c =>
    (a.toNat ≤ c.toNat && c.toNat ≤ b.toNat) || inCls rest c
  | a :: rest, c => (a = c) || inCls rest c

/-- Tokenise a glob pattern.  Fuel: each step consumes at least one pattern
character, so the pattern length is sufficient fuel. -/
def parseGlobF : Nat → List Char → List GlobTok
  | 0, _ => []
  | _ + 1, [] => []
  | n + 1, '*' :: rest => .star :: parseGlobF n rest
  | n + 1, '?' :: rest => .qmark :: parseGlobF n rest
  | n + 1, '[' :: rest =>
    (match splitCls rest with
     | some (neg, seq, rest2) => .cls neg seq :: parseGlobF n rest2
     | none => .lit '[' :: parseGlobF n rest)
  | n + 1, c :: rest => .lit c :: parseGlobF n rest

/-- Match a tokenised glob against a whole name (Python `fnmatch` anchors both
ends).  Fuel: every recursive call shrinks the combined length of pattern and
name, so their sum plus one is sufficient fuel. -/
def tokMatchF : Nat → List GlobTok → List Char → Bool
  | 0, _, _ => false
  | _ + 1, [], s => s.isEmpty
  | n + 1, .star :: ps, s =>
    tokMatchF n ps s ||
      (match s with
       | [] => false
       | _ :: cs => tokMatchF n (.star :: ps) cs)
  | n + 1, .qmark :: ps, s =>
    (match s with
     | [] => false
     | _ :: cs => tokMatchF n ps cs)
  | n + 1, .cls neg seq :: ps, s =>
    (match s with
     | [] => false
     | c :: cs => (inCls seq c != neg) && tokMatchF n ps cs)
  | n + 1, .lit a :: ps, s =>
    (match s with
     | [] => false
     | c :: cs => (a = c) && tokMatchF n ps cs)

/-- Python `fnmatch.fnmatch(name, pattern)` on POSIX. -/
def fnmatch (name pattern : String) : Bool :=
  let toks := parseGlobF pattern.data.length pattern.data
  tokMatchF (toks.length + name.data.length + 1) toks name.data

/-! ## Ignore rules (`should_ignore`, `read_gitignore`)

`should_ignore(path, gitignore_rules)` in the source receives a full path but
only inspects `os.path.basename(path)` and `os.path.isdir(path)`; the
embedding therefore takes the entry's basename and its directory status
directly (the call sites always pass `os.path.join(root, name)` for a `name`
without separators, whose basename is `name`). -/

def should_ignore (basename : String) (isDir : Bool) (rules : List String) : Bool :=
  rules.any (fun rule =>
    fnmatch basename rule || (isDir && fnmatch (basename ++ "/") rule))

/-- The line filter of `read_gitignore`: keep a line when its stripped form is
non-empty and the raw line does not start with `#`, and return the stripped
form.  File iteration yields `\n`-terminated lines; splitting at `\n` instead
is equivalent here because `strip` removes the terminator and the leading
character is unaffected. -/
def gitignoreLines (content : String) : List String :=
  ((splitChar content '\n').filter
      (fun line => pyStrip line ≠ "" && !(pyStartsWith line "#"))).map pyStrip

/-! ## Filesystem model -/

/-- A directory entry: a file with its text content (`none` models a byte
sequence that raises `UnicodeDecodeError` on read) or a subdirectory with its
children in directory-listing order (the order `os.walk` reports). -/
inductive FSTree where
  | file (name : String) (content : Option String)
  | dir (name : String) (children : List FSTree)

mutual
def sizeT : FSTree → Nat
  | .file _ _ => 1
  | .dir _ cs => 1 + sizeL cs
def sizeL : List FSTree → Nat
  | [] => 0
  | t :: ts => sizeT t + sizeL ts
end

/-- The non-directory entries of a listing, with their contents, in listing
order (the `files` component of an `os.walk` step). -/
def filesOf : List FSTree → List (String × Option String)
  | [] => []
  | .file n c :: rest => (n, c) :: filesOf rest
  | .dir _ _ :: rest => filesOf rest

/-- Look up the decodable content of a named file in a listing
(`os.path.isfile` followed by `open().read()`). -/
def findFileContent (name : String) : List FSTree → Option String
  | [] => none
  | .file n c :: rest => if n = name then c else findFileContent name rest
  | .dir _ _ :: rest => findFileContent name rest

/-- `read_gitignore(path)`: parse the directory's own `.gitignore` if present,
else the empty rule list.  The source does not guard the read of an ignore
file against decode errors; an undecodable `.gitignore` is outside the scope
of this model and treated like an absent one. -/
def read_gitignore (children : List FSTree) : List String :=
  match findFileContent ".gitignore" children with
  | some content => gitignoreLines content
  | none => []

/-- One document handed to `print_path`: `path` is exactly the string the
source prints (`os.path.join(root, name)` during traversal, the argument
string itself for a single-file root); `name` additionally records the
directory-entry name that the filters examined, kept for specification
purposes (for a single-file root, where no name-based filter runs, it is the
path itself). -/
structure Entry where
  path : String
  name : String
  content : String
deriving DecidableEq, Repr

/-- The state threaded through one invocation: the mutable
`gitignore_rules` list, the sequence of documents written to the output
stream, and the diagnostics written to the error stream. -/
structure WalkResult where
  rules : List String
  out : List Entry
  errs : List String
deriving DecidableEq, Repr

/-- The stderr diagnostic for a file that fails text decoding. -/
def warnMsg (path : String) : String :=
  "Warning: Skipping file " ++ path ++ " due to UnicodeDecodeError"

/-- The emission loop `for file in sorted(files): ...` of `process_path`: each
survivor is opened; a decodable file becomes an output document, an
undecodable one a diagnostic on the error stream, and the loop continues
either way. -/
def emitFiles (dirpath : String) : List (String × Option String) → List Entry × List String
  | [] => ([], [])
  | (n, some c) :: rest =>
    let p := emitFiles dirpath rest
    (⟨pathJoin dirpath n, n, c⟩ :: p.1, p.2)
  | (n, none) :: rest =>
    let p := emitFiles dirpath rest
    (p.1, warnMsg (pathJoin dirpath n) :: p.2)

/-! ## Configuration -/

/-- The selection-relevant options of one invocation (rendering options are
out of scope). -/
structure Config where
  extensions : List String
  includeHidden : Bool
  ignoreFilesOnly : Bool
  ignoreGitignore : Bool
  ignorePatterns : List String
deriving DecidableEq, Repr

/-- Survival of a file entry through the four sequential filters of the
`os.walk` body (hidden check, ignore-file rules against the rule list as
extended by the current directory, explicit patterns, extension filter).
Sequential list filtering with pure per-entry predicates is equivalent to one
conjunctive predicate. -/
def fileKeep (cfg : Config) (rules1 : List String) (f : String) : Bool :=
  (cfg.includeHidden || !(pyStartsWith f ".")) &&
  (cfg.ignoreGitignore || !(should_ignore f false rules1)) &&
  (cfg.ignorePatterns.isEmpty ||
    !(cfg.ignorePatterns.any (fun pat => fnmatch f pat))) &&
  (cfg.extensions.isEmpty || endswithAny f cfg.extensions)

/-- Survival of a directory entry through the pruning filters of the `os.walk`
body (hidden check, ignore-file rules, explicit patterns — the last one
skipped entirely when `--ignore-files-only` is set). -/
def dirKeep (cfg : Config) (rules1 : List String) (d : String) : Bool :=
  (cfg.includeHidden || !(pyStartsWith d ".")) &&
  (cfg.ignoreGitignore || !(should_ignore d true rules1)) &&
  (cfg.ignorePatterns.isEmpty || cfg.ignoreFilesOnly ||
    !(cfg.ignorePatterns.any (fun pat => fnmatch d pat)))

/-! ## The traversal (`os.walk` loop of `process_path`) -/

/-- One `os.walk` step at directory `dirpath`, with fuel bounding the
recursion depth (the wrapper `walkNode` supplies enough fuel for the whole
tree; out of fuel the walk emits nothing further).  The step mirrors the
source: extend the shared rule list with this directory's `.gitignore`
(unless `--ignore-gitignore`), filter and emit this directory's files in
sorted order, decide the surviving subdirectories with the rule list as it
stands now (`dirs[:]` is rewritten once, before any subtree is visited), then
traverse the survivors in listing order, threading the shared rule list — a
subtree visited earlier extends the list seen by its later siblings, exactly
as the single mutated `gitignore_rules` object does in the source. -/
def walkNodeF : Nat → Config → String → List FSTree → List String → WalkResult
  | 0, _, _, _, rules => ⟨rules, [], []⟩
  | fuel + 1, cfg, dirpath, children, rules =>
    let rules1 := if cfg.ignoreGitignore then rules else rules ++ read_gitignore children
    let kept := (filesOf children).filter (fun fc => fileKeep cfg rules1 fc.1)
    let ew := emitFiles dirpath (sortLe (fun a b => strLe a.1 b.1) kept)
    children.foldl
      (fun acc t =>
        match t with
        | .file _ _ => acc
        | .dir d dc =>
          if dirKeep cfg rules1 d then
            let sub := walkNodeF fuel cfg (pathJoin dirpath d) dc acc.rules
            ⟨sub.rules, acc.out ++ sub.out, acc.errs ++ sub.errs⟩
          else acc)
      ⟨rules1, ew.1, ew.2⟩

/-- The sibling-traversal step of `walkNodeF`, named for the proofs. -/
def walkStep (fuel : Nat) (cfg : Config) (dirpath : String) (rules1 : List String)
    (acc : WalkResult) (t : FSTree) : WalkResult :=
  match t with
  | .file _ _ => acc
  | .dir d dc =>
    if dirKeep cfg rules1 d then
      let sub := walkNodeF fuel cfg (pathJoin dirpath d) dc acc.rules
      ⟨sub.rules, acc.out ++ sub.out, acc.errs ++ sub.errs⟩
    else acc

/-- The traversal of a directory root, with fuel exceeding the tree size (the
fuel bounds the directory depth, which the node count dominates). -/
def walkNode (cfg : Config) (dirpath : String) (children : List FSTree)
    (rules : List String) : WalkResult :=
  walkNodeF (sizeL children + 1) cfg dirpath children rules

/-! ## `process_path` and the path loop of `cli` -/

/-- What a root path argument resolves to on disk: an existing file (with its
decodable content or a decode failure), an existing directory with its
listing, or nothing. -/
inductive FSNode where
  | file (content : Option String)
  | dir (children : List FSTree)

/-- `process_path`: a single-file root is emitted directly (a decode failure
becomes a diagnostic); a directory root is traversed by the `os.walk` loop.
No filter of any kind runs for a single-file root in the source. -/
def process_path (cfg : Config) (path : String) (node : FSNode)
    (rules : List String) : WalkResult :=
  match node with
  | .file (some c) => ⟨rules, [⟨path, path, c⟩], []⟩
  | .file none => ⟨rules, [], [warnMsg path]⟩
  | .dir children => walkNode cfg path children rules

/-- One root path of an invocation: the argument string, the listing of its
parent directory (`cli` reads `read_gitignore(os.path.dirname(path))` for each
root), and what the path resolves to (`none`: no such entry on disk). -/
structure RootArg where
  path : String
  parentChildren : List FSTree
  node : Option FSNode

/-- The error raised at `raise click.BadArgumentUsage(...)` for a path that
fails the in-loop existence check. -/
def missingMsg (path : String) : String :=
  "Path does not exist: " ++ path

/-- The result of the path-traversal branch of `cli`: the final shared rule
list, the output stream, the error stream, and the fatal error if one
occurred (output and diagnostics emitted before the failure are retained, as
writes to the streams are not rolled back). -/
structure CliResult where
  rules : List String
  out : List Entry
  errs : List String
  fatal : Option String
deriving DecidableEq, Repr

/-- The `for path in paths:` loop of `cli` (non-revision branch): check
existence, extend the shared rule list with the ignore file of the root's
parent directory (unless `--ignore-gitignore`), and process the root — the
rule list returned by one root is the one the next root starts from, because
the source passes one mutable list object to every `process_path` call. -/
def cliLoop (cfg : Config) : List RootArg → List String → CliResult
  | [], rules => ⟨rules, [], [], none⟩
  | r :: rest, rules =>
    match r.node with
    | none => ⟨rules, [], [], some (missingMsg r.path)⟩
    | some node =>
      let rules1 := if cfg.ignoreGitignore then rules
                    else rules ++ read_gitignore r.parentChildren
      let w := process_path cfg r.path node rules1
      let next := cliLoop cfg rest w.rules
      ⟨next.rules, w.out ++ next.out, w.errs ++ next.errs, next.fatal⟩

/-- The message with which `click`'s argument validation (the
`type=click.Path(exists=True)` declaration on `paths`) rejects a
non-existent path, modelled from click's documented behaviour: validation of
the argument list happens during command-line parsing, before the command
body runs. -/
def clickMsg (path : String) : String :=
  "Invalid value for PATHS: path does not exist: " ++ path

/-- The path-traversal branch of `cli`: paths named on the command line are
validated by `click` before the body runs (so a missing one aborts with no
output at all), stdin paths join the list unvalidated and are only checked by
the in-loop existence test; the loop starts from a single empty rule list for
the whole invocation. -/
def cliTraverse (cfg : Config) (args stdins : List RootArg) :
    List Entry × List String × Option String :=
  match args.find? (fun r => r.node.isNone) with
  | some r => ([], [], some (clickMsg r.path))
  | none =>
    let res := cliLoop cfg (args ++ stdins) []
    (res.out, res.errs, res.fatal)

/-! ## Revision mode (`--since`) -/

inductive Scope where
  | working
  | committed
  | staged
deriving DecidableEq, Repr

/-- The observable behaviour of the external `git` binary for one invocation,
each field the raw standard output of the corresponding command (which
`_run_git` strips), plus the relevant filesystem state under the repository
root.  `showIndex rel` is `git show :rel` (`Except.error` models a non-zero
exit); `readWorkTree rel` is the working-tree read, `none` modelling a decode
failure. -/
structure GitOracle where
  insideWorkTree : Bool
  refValid : Bool
  diffWorkingOut : String
  diffCommittedOut : String
  diffStagedOut : String
  untrackedOut : String
  showIndex : String → Except String String
  fileOnDisk : String → Bool
  readWorkTree : String → Option String

/-- `splitlines` of a diff listing followed by the source's blank-line filter. -/
def nonEmptyLines (s : String) : List String :=
  (splitChar s '\n').filter (fun l => l ≠ "")

/-- Deduplication keeping first occurrences: the Python `set(...)` of the diff
lines, represented as a duplicate-free list (the caller sorts the set, so the
representative order is irrelevant to everything observable). -/
def dedupAcc : List String → List String → List String
  | [], _ => []
  | x :: xs, seen =>
    if seen.contains x then dedupAcc xs seen
    else x :: dedupAcc xs (x :: seen)

def dedupFirst (l : List String) : List String :=
  dedupAcc l []

/-- `_git_changed_paths_since(ref, repo_root, scope)`: the tracked diff for
the scope (`diff --name-only REF --` / `diff --name-only REF..HEAD --` /
`diff --name-only --cached REF --`), the untracked listing for the working
scope only, and the final restriction to paths that exist on disk — which the
source applies to every scope alike. -/
def gitChangedPathsSince (g : GitOracle) (scope : Scope) : List String :=
  let tracked : List String :=
    match scope with
    | .working => nonEmptyLines (pyStrip g.diffWorkingOut)
    | .committed => nonEmptyLines (pyStrip g.diffCommittedOut)
    | .staged => nonEmptyLines (pyStrip g.diffStagedOut)
  let untracked : List String :=
    match scope with
    | .working => nonEmptyLines (pyStrip g.untrackedOut)
    | _ => []
  let candidates := dedupFirst (tracked ++ untracked)
  candidates.filter (fun p => g.fileOnDisk p)

/-- The component list of `os.path.normpath` for the relative paths git
reports (the absolute-path prefix handling of `normpath` never applies to
them): drop empty and `.` components, resolve `..` against a preceding
component.  The source recovers the parts by splitting the normalised string
at the separator again, which round-trips to this list (components are
non-empty and separator-free); an all-dropped path normalises to `.`. -/
def normpartsAux : List String → List String → List String
  | [], acc => acc
  | c :: cs, acc =>
    if c = "" || c = "." then normpartsAux cs acc
    else if c = ".." then
      if acc ≠ [] && acc.getLast? ≠ some ".." then normpartsAux cs acc.dropLast
      else normpartsAux cs (acc ++ [".."])
    else normpartsAux cs (acc ++ [c])

def relNormParts (rel : String) : List String :=
  match normpartsAux (splitChar rel '/') [] with
  | [] => ["."]
  | l => l

/-- The post-resolution filter chain of the `--since` branch (the
`continue`-guarded loop over `sorted(changed)`): hidden components, extension
suffixes against the unnormalised relative path, explicit patterns against
the basename only (`--ignore-files-only`) or against every component. -/
def sinceKeep (cfg : Config) (rel : String) : Bool :=
  let parts := relNormParts rel
  (cfg.includeHidden || !(parts.any (fun part => pyStartsWith part "."))) &&
  (cfg.extensions.isEmpty || endswithAny rel cfg.extensions) &&
  (cfg.ignorePatterns.isEmpty ||
    (if cfg.ignoreFilesOnly then
      !(cfg.ignorePatterns.any (fun pat => fnmatch (parts.getLastD "") pat))
     else
      !(parts.any (fun part => cfg.ignorePatterns.any (fun pat => fnmatch part pat)))))

/-- One document of the revision-mode output: the repository-relative path as
printed, and the emitted content. -/
structure RelEntry where
  rel : String
  content : String
deriving DecidableEq, Repr

/-- Content resolution for one path of the emission loop: staged scope reads
`git show :rel` — whose output passes through the `strip()` in `_run_git` —
and any other scope reads the working-tree file unmodified.  `none` is the
caught per-path failure (decode error or git error). -/
def contentOf (g : GitOracle) (scope : Scope) (rel : String) : Option String :=
  match scope with
  | .staged =>
    match g.showIndex rel with
    | .ok raw => some (pyStrip raw)
    | .error _ => none
  | _ => g.readWorkTree rel

/-- The stderr diagnostic of the revision-mode emission loop. -/
def sinceWarnMsg (rel : String) : String :=
  "Warning: Skipping file " ++ rel ++ " due to Unicode/Git error"

/-- The emission loop of the `--since` branch: a failed content read for one
path yields a diagnostic on the error stream and the loop continues. -/
def emitSince (g : GitOracle) (scope : Scope) : List String → List RelEntry × List String
  | [] => ([], [])
  | rel :: rest =>
    let p := emitSince g scope rest
    match contentOf g scope rel with
    | some c => (⟨rel, c⟩ :: p.1, p.2)
    | none => (p.1, sinceWarnMsg rel :: p.2)

def ignGitWarnMsg : String :=
  "--ignore-gitignore is ignored with --since; Git ignore rules always apply."

def notRepoMsg : String :=
  "The --since option requires running inside a Git repository"

def badRefMsg (ref : String) : String :=
  "Invalid Git revision: " ++ ref

/-- The `--since` branch of `cli` for an invocation without explicit path
arguments (with no paths given, the path-restriction block of the source is
skipped): warn if `--ignore-gitignore` was also passed, abort fatally before
any output when outside a work tree or when the reference does not resolve,
otherwise sort the changed set, filter it, and emit. -/
def cliSince (g : GitOracle) (cfg : Config) (scope : Scope) (ref : String) :
    List RelEntry × List String × Option String :=
  let warns := if cfg.ignoreGitignore then [ignGitWarnMsg] else []
  if !g.insideWorkTree then ([], warns, some notRepoMsg)
  else if !g.refValid then ([], warns, some (badRefMsg ref))
  else
    let rels := (sortLe strLe (gitChangedPathsSince g scope)).filter (sinceKeep cfg)
    let ew := emitSince g scope rels
    (ew.1, warns ++ ew.2, none)

/-! ## Concrete invocations used by the counterexamples and witnesses -/

/-- Defaults of an invocation with no options. -/
def cfgDefault : Config :=
  ⟨[], false, false, false, []⟩

/-- `-e py`. -/
def cfgPy : Config :=
  { cfgDefault with extensions := ["py"] }

/-- `--ignore "*.md" --ignore-files-only`. -/
def cfgC4 : Config :=
  { cfgDefault with ignorePatterns := ["*.md"], ignoreFilesOnly := true }

/-- First root of the cross-root leak scenario: its ignore file bans
`secret.txt`, and it contains nothing else visible. -/
def c1root1 : RootArg :=
  ⟨"root1", [], some (.dir [.file ".gitignore" (some "secret.txt")])⟩

/-- Second root of the cross-root leak scenario: it contains a file named
`secret.txt` and no ignore file of its own. -/
def c1root2 : RootArg :=
  ⟨"root2", [], some (.dir [.file "secret.txt" (some "sss")])⟩

/-- Sibling-leak tree: `a/.gitignore` bans `x.txt`; the *sibling* directory
`b`, visited later, contains `x.txt`; no ancestor of `b/x.txt` defines any
rule. -/
def c5kids : List FSTree :=
  [.dir "a" [.file ".gitignore" (some "x.txt")],
   .dir "b" [.file "x.txt" (some "hello")]]

/-- Ancestor-composition tree: the root's ignore file bans `skip.txt`, which
sits three levels below next to `keep.txt`; the intermediate directories
define no rules. -/
def c5wkids : List FSTree :=
  [.file ".gitignore" (some "skip.txt"),
   .dir "l1" [.dir "l2" [.file "keep.txt" (some "k"), .file "skip.txt" (some "s")]]]

/-- The entry emitted from the ancestor-composition tree. -/
def eC5 : Entry :=
  ⟨"r/l1/l2/keep.txt", "keep.txt", "k"⟩

/-- A directory whose own name matches the `*.md` pattern, with one matching
and one non-matching file inside. -/
def c4kids : List FSTree :=
  [.dir "archive.md" [.file "keep.txt" (some "k"), .file "notes.md" (some "n")]]

def eC4 : Entry :=
  ⟨"root/archive.md/keep.txt", "keep.txt", "k"⟩

/-- An existing single-file stdin path followed by a non-existent one. -/
def c8ok : RootArg :=
  ⟨"ok.txt", [], some (.file (some "hi"))⟩

def c8missing : RootArg :=
  ⟨"missing", [], none⟩

/-- A git oracle with nothing changed and nothing on disk. -/
def gBase : GitOracle :=
  ⟨true, true, "", "", "", "", fun _ => .error "fatal: not in index",
   fun _ => false, fun _ => none⟩

/-- Staged-deletion scenario: `gone.txt` is staged (the `--cached` diff
reports it) and readable from the index, but deleted from the working tree. -/
def c3g : GitOracle :=
  { gBase with
    diffStagedOut := "gone.txt",
    showIndex := fun _ => .ok "data",
    fileOnDisk := fun _ => false }

/-- Staged path that still exists on disk (for the amended claim's witness). -/
def c3gw : GitOracle :=
  { gBase with
    diffStagedOut := "a.txt",
    showIndex := fun _ => .ok "data",
    fileOnDisk := fun _ => true }

/-- Oracle for the staged-content claim: the index blob of every path is
`"data\n"` (trailing newline), the working-tree copy is `"wt"`. -/
def c10g : GitOracle :=
  { gBase with
    showIndex := fun _ => .ok "data\n",
    readWorkTree := fun _ => some "wt",
    fileOnDisk := fun _ => true }

/-! ## Helper lemmas -/

theorem mem_insertLe (le : α → α → Bool) (x a : α) (l : List α) :
    a ∈ insertLe le x l ↔ a = x ∨ a ∈ l := by
  induction l with
  | nil => simp [insertLe]
  | cons y ys ih =>
    rw [insertLe]
    split
    · simp [List.mem_cons]
    · simp only [List.mem_cons, ih]
      tauto

theorem mem_sortLe (le : α → α → Bool) (a : α) (l : List α) :
    a ∈ sortLe le l ↔ a ∈ l := by
  induction l with
  | nil => simp [sortLe]
  | cons x xs ih =>
    rw [sortLe, mem_insertLe]
    simp [ih]

theorem emitFiles_fst (dp : String) (l : List (String × Option String)) :
    (emitFiles dp l).1
      = l.filterMap (fun p => p.2.map (fun c => Entry.mk (pathJoin dp p.1) p.1 c)) := by
  induction l with
  | nil => rfl
  | cons hd tl ih =>
    obtain ⟨n, c⟩ := hd
    cases c <;> simp [emitFiles, ih, List.filterMap_cons]

theorem emitFiles_snd (dp : String) (l : List (String × Option String)) :
    (emitFiles dp l).2
      = (l.filter (fun p => p.2.isNone)).map (fun p => warnMsg (pathJoin dp p.1)) := by
  induction l with
  | nil => rfl
  | cons hd tl ih =>
    obtain ⟨n, c⟩ := hd
    cases c <;> simp [emitFiles, ih]

theorem emitSince_fst (g : GitOracle) (scope : Scope) (rels : List String) :
    (emitSince g scope rels).1
      = rels.filterMap (fun rel => (contentOf g scope rel).map (fun c => RelEntry.mk rel c)) := by
  induction rels with
  | nil => rfl
  | cons rel rest ih =>
    rw [emitSince]
    cases h : contentOf g scope rel <;> simp [h, ih, List.filterMap_cons]

theorem emitSince_snd (g : GitOracle) (scope : Scope) (rels : List String) :
    (emitSince g scope rels).2
      = (rels.filter (fun rel => (contentOf g scope rel).isNone)).map sinceWarnMsg := by
  induction rels with
  | nil => rfl
  | cons rel rest ih =>
    rw [emitSince]
    cases h : contentOf g scope rel <;> simp [h, ih]

theorem mem_dedupAcc (l : List String) (seen : List String) (x : String) :
    x ∈ dedupAcc l seen ↔ x ∈ l ∧ x ∉ seen := by
  induction l generalizing seen with
  | nil => simp [dedupAcc]
  | cons y ys ih =>
    rw [dedupAcc]
    split
    case isTrue h =>
      have hy : y ∈ seen := by simpa using h
      rw [ih]
      simp only [List.mem_cons]
      constructor
      · rintro ⟨hmem, hns⟩
        exact ⟨Or.inr hmem, hns⟩
      · rintro ⟨hxy | hmem, hns⟩
        · exact absurd (hxy ▸ hy) hns
        · exact ⟨hmem, hns⟩
    case isFalse h =>
      have hy : y ∉ seen := by simpa using h
      simp only [List.mem_cons, ih]
      constructor
      · rintro (rfl | ⟨hmem, hns⟩)
        · exact ⟨Or.inl rfl, hy⟩
        · refine ⟨Or.inr hmem, fun hc => hns (Or.inr hc)⟩
      · rintro ⟨rfl | hmem, hns⟩
        · exact Or.inl rfl
        · by_cases hxy : x = y
          · exact Or.inl hxy
          · exact Or.inr ⟨hmem, by simp [List.mem_cons, hxy, hns]⟩

theorem nodup_dedupAcc (l : List String) (seen : List String) :
    (dedupAcc l seen).Nodup := by
  induction l generalizing seen with
  | nil => simp [dedupAcc]
  | cons y ys ih =>
    rw [dedupAcc]
    split
    · exact ih seen
    · refine List.nodup_cons.mpr ⟨fun hc => ?_, ih (y :: seen)⟩
      rcases (mem_dedupAcc ys (y :: seen) y).mp hc with ⟨_, hns⟩
      exact hns (List.mem_cons_self y seen)

theorem mem_dedupFirst (l : List String) (x : String) :
    x ∈ dedupFirst l ↔ x ∈ l := by
  rw [dedupFirst, mem_dedupAcc]
  simp

theorem pyEndsWith_iff (s t : String) :
    pyEndsWith s t = true ↔ ∃ p, s = p ++ t := by
  rw [pyEndsWith, List.isSuffixOf_iff_suffix]
  constructor
  · rintro ⟨u, hu⟩
    refine ⟨String.mk u, String.ext ?_⟩
    rw [String.data_append]
    exact hu.symm
  · rintro ⟨p, rfl⟩
    exact ⟨p.data, (String.data_append p t).symm⟩

theorem fnmatch_eq_false_of_not_ignored (n ρ : String) (rules : List String)
    (h : should_ignore n false rules = false) (hρ : ρ ∈ rules) :
    fnmatch n ρ = false := by
  rw [should_ignore] at h
  rw [Bool.eq_false_iff] at h
  rw [Bool.eq_false_iff]
  intro hn
  exact h (List.any_eq_true.mpr ⟨ρ, hρ, by simp [hn]⟩)

theorem walkNodeF_succ (n : Nat) (cfg : Config) (dirpath : String)
    (children : List FSTree) (rules : List String) :
    walkNodeF (n + 1) cfg dirpath children rules =
      (let rules1 := if cfg.ignoreGitignore then rules else rules ++ read_gitignore children
       let kept := (filesOf children).filter (fun fc => fileKeep cfg rules1 fc.1)
       let ew := emitFiles dirpath (sortLe (fun a b => strLe a.1 b.1) kept)
       children.foldl (walkStep n cfg dirpath rules1) ⟨rules1, ew.1, ew.2⟩) := rfl

theorem walkStep_rules_append (n : Nat) (cfg : Config) (dirpath : String)
    (rules1 : List String)
    (ih : ∀ (dp : String) (dc : List FSTree) (rls : List String),
      ∃ ext, (walkNodeF n cfg dp dc rls).rules = rls ++ ext)
    (acc : WalkResult) (t : FSTree) :
    ∃ ext, (walkStep n cfg dirpath rules1 acc t).rules = acc.rules ++ ext := by
  cases t with
  | file nm c => exact ⟨[], by simp [walkStep]⟩
  | dir d dc =>
    rw [walkStep]
    split
    · exact ih (pathJoin dirpath d) dc acc.rules
    · exact ⟨[], by simp⟩

theorem foldl_walkStep_rules_append (n : Nat) (cfg : Config) (dirpath : String)
    (rules1 : List String)
    (ih : ∀ (dp : String) (dc : List FSTree) (rls : List String),
      ∃ ext, (walkNodeF n cfg dp dc rls).rules = rls ++ ext)
    (l : List FSTree) :
    ∀ acc : WalkResult,
      ∃ ext, (l.foldl (walkStep n cfg dirpath rules1) acc).rules = acc.rules ++ ext := by
  induction l with
  | nil => exact fun acc => ⟨[], by simp⟩
  | cons t ts iht =>
    intro acc
    rw [List.foldl_cons]
    obtain ⟨e1, he1⟩ := walkStep_rules_append n cfg dirpath rules1 ih acc t
    obtain ⟨e2, he2⟩ := iht (walkStep n cfg dirpath rules1 acc t)
    exact ⟨e1 ++ e2, by rw [he2, he1, List.append_assoc]⟩

/-- Within one traversal the shared rule list only ever grows by appending:
whatever `walkNodeF` returns extends the list it was given. -/
theorem walkNodeF_rules_append (fuel : Nat) (cfg : Config) (dirpath : String)
    (children : List FSTree) (rules : List String) :
    ∃ ext, (walkNodeF fuel cfg dirpath children rules).rules = rules ++ ext := by
  induction fuel generalizing dirpath children rules with
  | zero => exact ⟨[], by simp [walkNodeF]⟩
  | succ n ih =>
    rw [walkNodeF_succ]
    by_cases hg : cfg.ignoreGitignore = true
    · simp only [hg, if_pos]
      exact foldl_walkStep_rules_append n cfg dirpath rules
        (fun dp dc rls => ih dp dc rls) children _
    · rw [Bool.not_eq_true] at hg
      simp only [hg, Bool.false_eq_true, if_neg, not_false_iff]
      obtain ⟨ef, hef⟩ := foldl_walkStep_rules_append n cfg dirpath
        (rules ++ read_gitignore children) (fun dp dc rls => ih dp dc rls) children
        ⟨rules ++ read_gitignore children,
          (emitFiles dirpath (sortLe (fun a b => strLe a.1 b.1)
            ((filesOf children).filter
              (fun fc => fileKeep cfg (rules ++ read_gitignore children) fc.1)))).1,
          (emitFiles dirpath (sortLe (fun a b => strLe a.1 b.1)
            ((filesOf children).filter
              (fun fc => fileKeep cfg (rules ++ read_gitignore children) fc.1)))).2⟩
      exact ⟨read_gitignore children ++ ef, by rw [hef, List.append_assoc]⟩

theorem emit_kept_not_ignored (cfg : Config) (dirpath : String) (rules1 : List String)
    (hflag : cfg.ignoreGitignore = false) (children : List FSTree) :
    ∀ e ∈ (emitFiles dirpath (sortLe (fun a b => strLe a.1 b.1)
        ((filesOf children).filter (fun fc => fileKeep cfg rules1 fc.1)))).1,
      ∀ ρ ∈ rules1, fnmatch e.name ρ = false := by
  intro e he ρ hρ
  rw [emitFiles_fst, List.mem_filterMap] at he
  obtain ⟨p, hp, hmap⟩ := he
  rw [mem_sortLe, List.mem_filter] at hp
  obtain ⟨_, hkeep⟩ := hp
  cases hc : p.2 with
  | none => rw [hc] at hmap; simp at hmap
  | some c =>
    rw [hc] at hmap
    simp only [Option.map_some'] at hmap
    have hename : e.name = p.1 := by
      have := Option.some_inj.mp hmap
      rw [← this]
    rw [fileKeep] at hkeep
    simp only [hflag, Bool.false_or, Bool.and_eq_true, Bool.not_eq_true'] at hkeep
    rw [hename]
    exact fnmatch_eq_false_of_not_ignored p.1 ρ rules1 hkeep.1.1.2 hρ

theorem foldl_walkStep_out_inv (n : Nat) (cfg : Config) (dirpath : String)
    (rules1 : List String)
    (ih : ∀ (dp : String) (dc : List FSTree) (rls : List String),
      ∀ e ∈ (walkNodeF n cfg dp dc rls).out,
        ∀ ρ ∈ rls ++ read_gitignore dc, fnmatch e.name ρ = false)
    (l : List FSTree) :
    ∀ acc : WalkResult,
      (∀ e ∈ acc.out, ∀ ρ ∈ rules1, fnmatch e.name ρ = false) →
      (∃ ext, acc.rules = rules1 ++ ext) →
      ∀ e ∈ (l.foldl (walkStep n cfg dirpath rules1) acc).out,
        ∀ ρ ∈ rules1, fnmatch e.name ρ = false := by
  induction l with
  | nil => intro acc hout _; simpa using hout
  | cons t ts iht =>
    intro acc hout hrules
    rw [List.foldl_cons]
    refine iht (walkStep n cfg dirpath rules1 acc t) ?_ ?_
    · cases t with
      | file nm c => simpa [walkStep] using hout
      | dir d dc =>
        rw [walkStep]
        split
        · intro e he ρ hρ
          simp only [List.mem_append] at he
          rcases he with h1 | h2
          · exact hout e h1 ρ hρ
          · obtain ⟨ext, hext⟩ := hrules
            refine ih (pathJoin dirpath d) dc acc.rules e h2 ρ ?_
            rw [hext]
            exact List.mem_append_left _ (List.mem_append_left _ hρ)
        · exact hout
    · obtain ⟨ext, hext⟩ := hrules
      obtain ⟨e2, he2⟩ := walkStep_rules_append n cfg dirpath rules1
        (fun dp dc rls => walkNodeF_rules_append n cfg dp dc rls) acc t
      exact ⟨ext ++ e2, by rw [he2, hext, List.append_assoc]⟩

/-- No file whose name matches a rule already on the rule list when its
directory is visited — in particular any rule loaded at or above it in the
tree — is ever emitted (ignore-file honouring on). -/
theorem walkNodeF_out_not_ignored (fuel : Nat) (cfg : Config)
    (hflag : cfg.ignoreGitignore = false) (dirpath : String)
    (children : List FSTree) (rules : List String) :
    ∀ e ∈ (walkNodeF fuel cfg dirpath children rules).out,
      ∀ ρ ∈ rules ++ read_gitignore children, fnmatch e.name ρ = false := by
  induction fuel generalizing dirpath children rules with
  | zero => intro e he; simp [walkNodeF] at he
  | succ n ih =>
    intro e he ρ hρ
    rw [walkNodeF_succ] at he
    simp only [hflag, Bool.false_eq_true, if_false] at he
    refine foldl_walkStep_out_inv n cfg dirpath (rules ++ read_gitignore children)
      (fun dp dc rls => ih dp dc rls) children _ ?_ ⟨[], by simp⟩ e he ρ hρ
    exact emit_kept_not_ignored cfg dirpath _ hflag children


theorem fileKeep_split (exts : List String) (ihid ifo igit : Bool) (pats : List String)
    (rules1 : List String) (f : String) :
    fileKeep ⟨exts, ihid, ifo, igit, pats⟩ rules1 f
      = (fileKeep ⟨exts, ihid, ifo, igit, []⟩ rules1 f
          && !(pats.any (fun pat => fnmatch f pat))) := by
  cases pats with
  | nil => simp [fileKeep]
  | cons a l =>
    simp only [fileKeep, List.isEmpty_cons, Bool.false_or, List.isEmpty_nil, Bool.true_or]
    cases h1 : (ihid || !pyStartsWith f ".") <;>
      cases h2 : (igit || !should_ignore f false rules1) <;>
      cases h3 : (exts.isEmpty || endswithAny f exts) <;>
      cases h4 : (List.any (a :: l) fun pat => fnmatch f pat) <;> simp

theorem dirKeep_noPatterns (exts : List String) (ihid igit : Bool) (pats : List String)
    (rules1 : List String) (d : String) :
    dirKeep ⟨exts, ihid, true, igit, pats⟩ rules1 d
      = dirKeep ⟨exts, ihid, true, igit, []⟩ rules1 d := by
  simp [dirKeep]

theorem mem_emit_kept (cfg : Config) (dirpath : String) (rules1 : List String)
    (children : List FSTree) (e : Entry) :
    e ∈ (emitFiles dirpath (sortLe (fun a b => strLe a.1 b.1)
        ((filesOf children).filter (fun fc => fileKeep cfg rules1 fc.1)))).1
      ↔ ∃ n c, (n, some c) ∈ filesOf children ∧ fileKeep cfg rules1 n = true
          ∧ e = Entry.mk (pathJoin dirpath n) n c := by
  rw [emitFiles_fst, List.mem_filterMap]
  constructor
  · rintro ⟨p, hp, hmap⟩
    rw [mem_sortLe, List.mem_filter] at hp
    cases hc : p.2 with
    | none => rw [hc] at hmap; simp at hmap
    | some c =>
      rw [hc] at hmap
      simp only [Option.map_some'] at hmap
      refine ⟨p.1, c, ?_, hp.2, (Option.some_inj.mp hmap).symm⟩
      have hpair : p = (p.1, some c) := by
        rw [← hc]
      rw [← hpair]
      exact hp.1
  · rintro ⟨n, c, hmem, hkeep, rfl⟩
    refine ⟨(n, some c), ?_, rfl⟩
    rw [mem_sortLe, List.mem_filter]
    exact ⟨hmem, hkeep⟩

theorem emit_kept_patterns_split (exts : List String) (ihid ifo igit : Bool)
    (pats : List String) (dirpath : String) (rules1 : List String)
    (children : List FSTree) :
    ∀ e : Entry, e ∈ (emitFiles dirpath (sortLe (fun a b => strLe a.1 b.1)
        ((filesOf children).filter
          (fun fc => fileKeep ⟨exts, ihid, ifo, igit, pats⟩ rules1 fc.1)))).1
      ↔ (e ∈ (emitFiles dirpath (sortLe (fun a b => strLe a.1 b.1)
          ((filesOf children).filter
            (fun fc => fileKeep ⟨exts, ihid, ifo, igit, []⟩ rules1 fc.1)))).1
        ∧ pats.any (fun pat => fnmatch e.name pat) = false) := by
  intro e
  rw [mem_emit_kept, mem_emit_kept]
  constructor
  · rintro ⟨n, c, hmem, hkeep, rfl⟩
    rw [fileKeep_split, Bool.and_eq_true] at hkeep
    refine ⟨⟨n, c, hmem, hkeep.1, rfl⟩, ?_⟩
    simpa using hkeep.2
  · rintro ⟨⟨n, c, hmem, hkeep0, rfl⟩, hnp⟩
    refine ⟨n, c, hmem, ?_, rfl⟩
    rw [fileKeep_split, Bool.and_eq_true]
    exact ⟨hkeep0, by simpa using hnp⟩

theorem foldl_walkStep_patterns (n : Nat) (exts : List String) (ihid igit : Bool)
    (pats : List String) (dirpath : String) (rules1 : List String)
    (ih : ∀ (dp : String) (dc : List FSTree) (rls : List String),
      ((walkNodeF n ⟨exts, ihid, true, igit, pats⟩ dp dc rls).rules
          = (walkNodeF n ⟨exts, ihid, true, igit, []⟩ dp dc rls).rules)
      ∧ ∀ e : Entry, e ∈ (walkNodeF n ⟨exts, ihid, true, igit, pats⟩ dp dc rls).out ↔
          (e ∈ (walkNodeF n ⟨exts, ihid, true, igit, []⟩ dp dc rls).out
            ∧ pats.any (fun pat => fnmatch e.name pat) = false))
    (l : List FSTree) :
    ∀ acc acc0 : WalkResult,
      acc.rules = acc0.rules →
      (∀ e : Entry, e ∈ acc.out ↔
        (e ∈ acc0.out ∧ pats.any (fun pat => fnmatch e.name pat) = false)) →
      ((l.foldl (walkStep n ⟨exts, ihid, true, igit, pats⟩ dirpath rules1) acc).rules
          = (l.foldl (walkStep n ⟨exts, ihid, true, igit, []⟩ dirpath rules1) acc0).rules)
      ∧ ∀ e : Entry,
          e ∈ (l.foldl (walkStep n ⟨exts, ihid, true, igit, pats⟩ dirpath rules1) acc).out ↔
          (e ∈ (l.foldl (walkStep n ⟨exts, ihid, true, igit, []⟩ dirpath rules1) acc0).out
            ∧ pats.any (fun pat => fnmatch e.name pat) = false) := by
  induction l with
  | nil => intro acc acc0 hr ho; exact ⟨hr, ho⟩
  | cons t ts iht =>
    intro acc acc0 hr ho
    rw [List.foldl_cons, List.foldl_cons]
    cases t with
    | file nm c =>
      exact iht acc acc0 hr ho
    | dir d dc =>
      rw [walkStep, walkStep, ← dirKeep_noPatterns exts ihid igit pats rules1 d]
      split
      · rw [← hr]
        obtain ⟨hsubr, hsubo⟩ := ih (pathJoin dirpath d) dc acc.rules
        refine iht _ _ ?_ ?_
        · simpa using hsubr
        · intro e
          simp only [List.mem_append]
          constructor
          · rintro (h1 | h2)
            · rcases (ho e).mp h1 with ⟨h1', hnp⟩
              exact ⟨Or.inl h1', hnp⟩
            · rcases (hsubo e).mp h2 with ⟨h2', hnp⟩
              exact ⟨Or.inr h2', hnp⟩
          · rintro ⟨h1 | h2, hnp⟩
            · exact Or.inl ((ho e).mpr ⟨h1, hnp⟩)
            · exact Or.inr ((hsubo e).mpr ⟨h2, hnp⟩)
      · exact iht acc acc0 hr ho

/-- C4: with `--ignore-files-only` set, the explicit `--ignore` patterns never
prune directories and never change the rule-list evolution of the walk: the
traversal visits exactly the directories of the pattern-free invocation
(equal final rule lists), and the output is that of the pattern-free
invocation with exactly the files whose own name matches a pattern removed.
In particular a directory whose basename matches a pattern is still
traversed, and each of its descendant files that does not itself match a
pattern is still emitted. -/
theorem c4_filesOnly_patterns_never_prune (fuel : Nat) (exts : List String)
    (ihid igit : Bool) (pats : List String) (dirpath : String)
    (children : List FSTree) (rules : List String) :
    ((walkNodeF fuel ⟨exts, ihid, true, igit, pats⟩ dirpath children rules).rules
        = (walkNodeF fuel ⟨exts, ihid, true, igit, []⟩ dirpath children rules).rules)
    ∧ ∀ e : Entry, e ∈ (walkNodeF fuel ⟨exts, ihid, true, igit, pats⟩ dirpath children rules).out ↔
        (e ∈ (walkNodeF fuel ⟨exts, ihid, true, igit, []⟩ dirpath children rules).out
          ∧ pats.any (fun pat => fnmatch e.name pat) = false) := by
  induction fuel generalizing dirpath children rules with
  | zero => exact ⟨rfl, fun e => by simp [walkNodeF]⟩
  | succ n ih =>
    rw [walkNodeF_succ, walkNodeF_succ]
    dsimp only
    apply foldl_walkStep_patterns n exts ihid igit pats dirpath
      (if igit = true then rules else rules ++ read_gitignore children)
      (fun dp dc rls => ih dp dc rls) children
    · rfl
    · exact emit_kept_patterns_split exts ihid true igit pats dirpath
        (if igit = true then rules else rules ++ read_gitignore children) children

theorem process_path_rules_append (cfg : Config) (path : String) (node : FSNode)
    (rules : List String) :
    ∃ ext, (process_path cfg path node rules).rules = rules ++ ext := by
  cases node with
  | file c => cases c <;> exact ⟨[], by simp [process_path]⟩
  | dir children =>
    simpa [process_path, walkNode] using
      walkNodeF_rules_append (sizeL children + 1) cfg path children rules

theorem cliLoop_rules_append (cfg : Config) (roots : List RootArg) (rules : List String) :
    ∃ ext, (cliLoop cfg roots rules).rules = rules ++ ext := by
  induction roots generalizing rules with
  | nil => exact ⟨[], by simp [cliLoop]⟩
  | cons r rest ih =>
    cases hn : r.node with
    | none => exact ⟨[], by simp [cliLoop, hn]⟩
    | some node =>
      have hbase : ∃ e0, (if cfg.ignoreGitignore then rules
          else rules ++ read_gitignore r.parentChildren) = rules ++ e0 := by
        by_cases hg : cfg.ignoreGitignore = true
        · exact ⟨[], by simp [hg]⟩
        · rw [Bool.not_eq_true] at hg
          exact ⟨read_gitignore r.parentChildren, by simp [hg]⟩
      obtain ⟨e0, he0⟩ := hbase
      obtain ⟨e1, he1⟩ := process_path_rules_append cfg r.path node
        (if cfg.ignoreGitignore then rules else rules ++ read_gitignore r.parentChildren)
      obtain ⟨e2, he2⟩ := ih (process_path cfg r.path node
        (if cfg.ignoreGitignore then rules
         else rules ++ read_gitignore r.parentChildren)).rules
      refine ⟨e0 ++ e1 ++ e2, ?_⟩
      simp only [cliLoop, hn]
      rw [he2, he1, he0]
      simp [List.append_assoc]

theorem walkNodeF_rules_sees_gitignore (n : Nat) (cfg : Config)
    (hflag : cfg.ignoreGitignore = false) (dp : String) (children : List FSTree)
    (rls : List String) :
    ∃ ext, (walkNodeF (n + 1) cfg dp children rls).rules
      = (rls ++ read_gitignore children) ++ ext := by
  rw [walkNodeF_succ]
  simp only [hflag, Bool.false_eq_true, if_false]
  exact foldl_walkStep_rules_append n cfg dp (rls ++ read_gitignore children)
    (fun a b c => walkNodeF_rules_append n cfg a b c) children _

/-! ## Claim C1 -/

/-- C1 counterexample: the claim says each root argument starts from an empty
ignore-rule set, so `root2/secret.txt` — matched by no rule of `root2` or of
any of its ancestors — would be emitted.  Processing `root2` alone does emit
it (second conjunct), but in the invocation `[root1, root2]` the rule
`secret.txt` loaded from `root1/.gitignore` persists in the shared list and
suppresses it (first conjunct: the whole invocation emits nothing). -/
theorem c1_counterexample :
    cliTraverse cfgDefault [c1root1, c1root2] [] = ([], [], none)
    ∧ cliTraverse cfgDefault [c1root2] []
        = ([⟨"root2/secret.txt", "secret.txt", "sss"⟩], [], none) := by
  constructor <;> decide

/-- C1 (amended): the ignore-rule list is not rebuilt per root argument: one
shared list serves the whole invocation and is only ever appended to (first
conjunct), and consequently a rule loaded from an earlier root's own ignore
file also filters every entry emitted under a later root — no entry of the
whole two-root invocation has a name matching a rule of the first root's
ignore file (second conjunct). -/
theorem c1_rule_list_shared_across_roots (cfg : Config)
    (hflag : cfg.ignoreGitignore = false) (r1 r2 : RootArg)
    (kids1 kids2 : List FSTree) (rules : List String) (ρ : String)
    (h1 : r1.node = some (.dir kids1)) (h2 : r2.node = some (.dir kids2))
    (hρ : ρ ∈ read_gitignore kids1) :
    (∃ ext, (cliLoop cfg [r1, r2] rules).rules = rules ++ ext)
    ∧ ∀ e ∈ (cliLoop cfg [r1, r2] rules).out, fnmatch e.name ρ = false := by
  refine ⟨cliLoop_rules_append cfg [r1, r2] rules, ?_⟩
  intro e he
  simp only [cliLoop, h1, h2, hflag, Bool.false_eq_true, if_false,
    process_path, walkNode] at he
  rw [List.mem_append] at he
  rcases he with hw1 | hrest
  · exact walkNodeF_out_not_ignored (sizeL kids1 + 1) cfg hflag r1.path kids1
      (rules ++ read_gitignore r1.parentChildren) e hw1 ρ
      (List.mem_append_right _ hρ)
  · rw [List.mem_append] at hrest
    rcases hrest with hw2 | hnil
    · obtain ⟨ext, hext⟩ := walkNodeF_rules_sees_gitignore (sizeL kids1) cfg hflag
        r1.path kids1 (rules ++ read_gitignore r1.parentChildren)
      refine walkNodeF_out_not_ignored (sizeL kids2 + 1) cfg hflag r2.path kids2
        _ e hw2 ρ ?_
      refine List.mem_append_left _ (List.mem_append_left _ ?_)
      rw [hext]
      exact List.mem_append_left _ (List.mem_append_right _ hρ)
    · simp [cliLoop] at hnil

/-- Witness for the amended C1 theorem at the concrete two-root invocation. -/
theorem c1_rule_list_shared_witness :
    (∃ ext, (cliLoop cfgDefault [c1root1, c1root2] []).rules = [] ++ ext)
    ∧ ∀ e ∈ (cliLoop cfgDefault [c1root1, c1root2] []).out,
        fnmatch e.name "secret.txt" = false :=
  c1_rule_list_shared_across_roots cfgDefault rfl c1root1 c1root2
    [FSTree.file ".gitignore" (some "secret.txt")]
    [FSTree.file "secret.txt" (some "sss")]
    [] "secret.txt" rfl rfl (by decide)

/-! ## Claim C2 -/

/-- C2 counterexample: with the extension filter `py` and a single-file root
`notes.txt` — whose name matches no configured suffix — the claim demands no
output, but `process_path` emits the file unconditionally. -/
theorem c2_counterexample :
    process_path cfgPy "notes.txt" (.file (some "hello")) []
      = ⟨[], [⟨"notes.txt", "notes.txt", "hello"⟩], []⟩
    ∧ endswithAny "notes.txt" cfgPy.extensions = false := by
  constructor <;> decide

/-- C2 (amended): an explicitly named single-file root is emitted
unconditionally when its content decodes; the extension filter (like every
other filter) applies only inside directory traversal, so the emission is
independent of the configured extensions. -/
theorem c2_single_file_bypasses_extension_filter (cfg : Config)
    (exts2 : List String) (path : String) (c : String) (rules : List String) :
    process_path cfg path (.file (some c)) rules
      = ⟨rules, [⟨path, path, c⟩], []⟩
    ∧ process_path { cfg with extensions := exts2 } path (.file (some c)) rules
      = process_path cfg path (.file (some c)) rules :=
  ⟨rfl, rfl⟩

/-! ## Claim C3 -/

/-- C3 counterexample: `gone.txt` is staged (the cached diff reports it) and
readable from the index, but deleted from the working tree; the claim demands
it remain in the resolved changed set, yet the resolved set is empty and the
invocation emits nothing — the disk-existence check is not bypassed for the
Staged scope. -/
theorem c3_counterexample :
    gitChangedPathsSince c3g .staged = []
    ∧ cliSince c3g cfgDefault .staged "HEAD" = ([], [], none) := by
  constructor <;> decide

/-- C3 (amended): the disk-existence restriction of
`_git_changed_paths_since` applies to the Staged scope exactly as to the
others: every path in the resolved Staged-scope set exists in the working
tree, so a staged-but-deleted path is dropped (only the content of surviving
paths is read from the index). -/
theorem c3_staged_existence_check_applies (g : GitOracle) (p : String)
    (h : p ∈ gitChangedPathsSince g .staged) : g.fileOnDisk p = true := by
  simp only [gitChangedPathsSince] at h
  exact (List.mem_filter.mp h).2

/-- Witness for the amended C3 theorem: a staged path that does exist on
disk is resolved, and the theorem applies to it. -/
theorem c3_staged_existence_witness :
    "a.txt" ∈ gitChangedPathsSince c3gw .staged
    ∧ c3gw.fileOnDisk "a.txt" = true :=
  ⟨by decide, c3_staged_existence_check_applies c3gw "a.txt" (by decide)⟩

/-! ## Claim C5 -/

/-- C5 counterexample: in the tree `[a, b]` with `a/.gitignore` banning
`x.txt` and the sibling `b` containing `x.txt`, no ignore-file on the chain
from the traversal root down to `b` (which defines no rules) mentions
`x.txt`, so judging each file only against rules loaded from its own
root-to-parent chain would emit `root/b/x.txt` — the walk of `b`'s subtree
alone does emit it (second conjunct).  The full traversal emits nothing
(first conjunct): the rule from the previously visited sibling subtree `a`
persists in the shared list, which therefore is not the root-to-parent
concatenation the claim describes. -/
theorem c5_counterexample :
    walkNode cfgDefault "root" c5kids [] = ⟨["x.txt"], [], []⟩
    ∧ walkNode cfgDefault "root/b" [.file "x.txt" (some "hello")] []
        = ⟨[], [⟨"root/b/x.txt", "x.txt", "hello"⟩], []⟩ := by
  constructor <;> decide

/-- C5 (amended): when ignore-files are honoured, the rule list only ever
grows by appending within a traversal (first conjunct), and every emitted
file was judged against at least all rules active when its subtree was
entered — which always includes every rule loaded from the traversal root
down to its immediate parent, and possibly rules from previously visited
sibling subtrees.  Consequently no emitted entry's name matches any rule
passed into the traversal or loaded from the traversal root's own ignore
file (second conjunct): a file matching a rule defined several levels above
it is excluded even when its immediate parent defines no rules. -/
theorem c5_ancestor_rules_compose (fuel : Nat) (cfg : Config)
    (hflag : cfg.ignoreGitignore = false) (dirpath : String)
    (children : List FSTree) (rules : List String) :
    (∃ ext, (walkNodeF fuel cfg dirpath children rules).rules = rules ++ ext)
    ∧ ∀ e ∈ (walkNodeF fuel cfg dirpath children rules).out,
        ∀ ρ ∈ rules ++ read_gitignore children, fnmatch e.name ρ = false :=
  ⟨walkNodeF_rules_append fuel cfg dirpath children rules,
   walkNodeF_out_not_ignored fuel cfg hflag dirpath children rules⟩

/-- Witness for the amended C5 theorem: in the three-level tree whose root
ignore file bans `skip.txt`, the entry emitted from depth three is judged
against that ancestor rule (and fails to match it) even though its immediate
parent defines no rules. -/
theorem c5_ancestor_rules_witness :
    eC5 ∈ (walkNodeF 6 cfgDefault "r" c5wkids []).out
    ∧ "skip.txt" ∈ ([] : List String) ++ read_gitignore c5wkids
    ∧ fnmatch eC5.name "skip.txt" = false :=
  ⟨by decide, by decide,
   (c5_ancestor_rules_compose 6 cfgDefault rfl "r" c5wkids []).2 eC5 (by decide)
     "skip.txt" (by decide)⟩

/-! ## Claim C6 -/

/-- C6: with a non-empty extension filter, the check applied to a candidate
(`name.endswith(tuple(extensions))` behind the non-emptiness guard, the very
test used both by the traversal on the basename and by the revision branch on
the relative path) passes exactly when the examined string literally ends
with one of the configured suffixes — plain string suffix, no dot
normalisation. -/
theorem c6_extension_filter_literal_suffix (exts : List String) (name : String)
    (h : exts ≠ []) :
    (exts.isEmpty || endswithAny name exts) = true
      ↔ ∃ e ∈ exts, ∃ p : String, name = p ++ e := by
  have hie : exts.isEmpty = false := by
    cases exts with
    | nil => exact absurd rfl h
    | cons a l => rfl
  rw [hie, Bool.false_or, endswithAny, List.any_eq_true]
  constructor
  · rintro ⟨e, he, hend⟩
    exact ⟨e, he, (pyEndsWith_iff name e).mp hend⟩
  · rintro ⟨e, he, hp⟩
    exact ⟨e, he, (pyEndsWith_iff name e).mpr hp⟩

/-- Witness for C6: the filter `py` passes `foo.happy` (the intentional
false positive: `foo.happy = "foo.hap" ++ "py"`) as well as `foo.py`. -/
theorem c6_extension_filter_witness :
    ((["py"] : List String).isEmpty || endswithAny "foo.happy" ["py"]) = true
    ∧ ((["py"] : List String).isEmpty || endswithAny "foo.py" ["py"]) = true :=
  ⟨(c6_extension_filter_literal_suffix ["py"] "foo.happy" (by decide)).mpr
     ⟨"py", by decide, "foo.hap", by decide⟩,
   (c6_extension_filter_literal_suffix ["py"] "foo.py" (by decide)).mpr
     ⟨"py", by decide, "foo.", by decide⟩⟩

/-! ## Claim C7 -/

/-- C7: the Committed-scope resolved set is duplicate-free and contains
exactly the names listed by the two-dot diff from the reference to HEAD that
still exist on disk; in particular a path appearing only in the untracked
listing or only in the staged (`--cached`) diff — untracked files and
purely-staged changes — never appears, because membership requires presence
in the two-dot diff output. -/
theorem c7_committed_is_two_dot_diff (g : GitOracle) :
    (gitChangedPathsSince g .committed).Nodup
    ∧ ∀ p : String, p ∈ gitChangedPathsSince g .committed ↔
        (p ∈ nonEmptyLines (pyStrip g.diffCommittedOut) ∧ g.fileOnDisk p = true) := by
  constructor
  · simp only [gitChangedPathsSince, dedupFirst]
    exact List.Nodup.filter _ (nodup_dedupAcc _ _)
  · intro p
    simp only [gitChangedPathsSince, List.mem_filter, dedupFirst, mem_dedupAcc,
      List.not_mem_nil, not_false_iff, and_true, List.append_nil]

/-! ## Claim C9 -/

/-- C9: in both emission loops, an item whose content cannot be obtained (a
file that fails text decoding during traversal; a decode failure or failed
`git show` read in revision mode) contributes exactly one diagnostic to the
error stream and nothing to the output stream, while every other item —
including items after the failing one — is emitted unchanged: the output
stream is the filter-map of the successful reads and the error stream the
diagnostics of the failed ones, two disjoint streams. -/
theorem c9_per_item_skip_with_diagnostic (dp : String)
    (fs : List (String × Option String)) (g : GitOracle) (scope : Scope)
    (rels : List String) :
    (emitFiles dp fs).1
        = fs.filterMap (fun p => p.2.map (fun c => Entry.mk (pathJoin dp p.1) p.1 c))
    ∧ (emitFiles dp fs).2
        = (fs.filter (fun p => p.2.isNone)).map (fun p => warnMsg (pathJoin dp p.1))
    ∧ (emitSince g scope rels).1
        = rels.filterMap (fun rel => (contentOf g scope rel).map (fun c => RelEntry.mk rel c))
    ∧ (emitSince g scope rels).2
        = (rels.filter (fun rel => (contentOf g scope rel).isNone)).map sinceWarnMsg :=
  ⟨emitFiles_fst dp fs, emitFiles_snd dp fs, emitSince_fst g scope rels,
   emitSince_snd g scope rels⟩

/-! ## Claim C10 -/

/-- C10: in Staged scope the emitted content for a path is the `git show`
output of the index blob passed through the `strip()` in `_run_git` — so it
can differ from the exact staged bytes, in particular a trailing newline is
removed — whereas in Working and Committed scopes the content is the
working-tree read, unmodified. -/
theorem c10_staged_content_is_stripped_index_blob (g : GitOracle) (rel : String)
    (rest : List String) (raw wc : String) (hshow : g.showIndex rel = .ok raw)
    (hread : g.readWorkTree rel = some wc) :
    (emitSince g .staged (rel :: rest)).1
        = ⟨rel, pyStrip raw⟩ :: (emitSince g .staged rest).1
    ∧ (emitSince g .working (rel :: rest)).1
        = ⟨rel, wc⟩ :: (emitSince g .working rest).1
    ∧ (emitSince g .committed (rel :: rest)).1
        = ⟨rel, wc⟩ :: (emitSince g .committed rest).1 := by
  refine ⟨?_, ?_, ?_⟩ <;> simp [emitSince, contentOf, hshow, hread]

/-- Witness for C10: with `"data\n"` staged, the Staged scope emits
`"data"` — the trailing newline stripped, differing from the staged bytes —
while the Working scope emits the working-tree content untouched. -/
theorem c10_staged_content_witness :
    c10g.showIndex "f" = .ok "data\n"
    ∧ c10g.readWorkTree "f" = some "wt"
    ∧ (emitSince c10g .staged ["f"]).1 = [⟨"f", "data"⟩]
    ∧ (emitSince c10g .working ["f"]).1 = [⟨"f", "wt"⟩]
    ∧ pyStrip "data\n" ≠ "data\n" := by
  refine ⟨rfl, rfl, ?_, ?_, by decide⟩
  · have h := (c10_staged_content_is_stripped_index_blob c10g "f" [] "data\n" "wt"
      rfl rfl).1
    rw [h]
    decide
  · have h := (c10_staged_content_is_stripped_index_blob c10g "f" [] "data\n" "wt"
      rfl rfl).2.1
    rw [h]
    decide

/-! ## Claim C8 -/

/-- C8 counterexample: with the existing file `ok.txt` followed by the
non-existent `missing`, both arriving via stdin, the invocation aborts
fatally on `missing` — but only after the (path, content) pair for `ok.txt`
has already been written to the output stream, refuting "no pair for any
other path is emitted before the failure". -/
theorem c8_counterexample :
    cliTraverse cfgDefault [] [c8ok, c8missing]
      = ([⟨"ok.txt", "ok.txt", "hi"⟩], [], some (missingMsg "missing")) := by
  decide

/-- C8 (amended): a non-existent path named on the command line is rejected
by the argument validation before the command body runs, so the invocation
aborts with a fatal error and no output at all; a non-existent path read from
stdin bypasses that validation and aborts the invocation only when the path
loop reaches it, so output already emitted for earlier paths stands. -/
theorem c8_arg_paths_validated_before_output (cfg : Config)
    (args stdins : List RootArg) (h : args.any (fun r => r.node.isNone) = true) :
    (cliTraverse cfg args stdins).1 = []
    ∧ ((cliTraverse cfg args stdins).2.2).isSome = true := by
  cases hf : args.find? (fun r => r.node.isNone) with
  | some r => simp [cliTraverse, hf]
  | none =>
    exfalso
    rcases List.any_eq_true.mp h with ⟨r, hr, hnone⟩
    have hnot := List.find?_eq_none.mp hf r hr
    rw [hnone] at hnot
    exact hnot rfl

/-- Witness for the amended C8 theorem: a single non-existent command-line
path aborts with empty output and a fatal error. -/
theorem c8_arg_paths_witness :
    ([c8missing].any (fun r => r.node.isNone)) = true
    ∧ (cliTraverse cfgDefault [c8missing] []).1 = []
    ∧ ((cliTraverse cfgDefault [c8missing] []).2.2).isSome = true :=
  ⟨by decide,
   (c8_arg_paths_validated_before_output cfgDefault [c8missing] [] (by decide)).1,
   (c8_arg_paths_validated_before_output cfgDefault [c8missing] [] (by decide)).2⟩

/-! ## Adequacy of the fuel wrapper -/

theorem sizeT_le_sizeL (t : FSTree) (l : List FSTree) (h : t ∈ l) :
    sizeT t ≤ sizeL l := by
  induction l with
  | nil => cases h
  | cons x xs ih =>
    rw [sizeL]
    rcases List.mem_cons.mp h with rfl | hx
    · exact Nat.le_add_right _ _
    · exact Nat.le_trans (ih hx) (Nat.le_add_left _ _)

/-- Any fuel exceeding the subtree size yields the same traversal: the fuel
parameter only bounds the recursion depth, and `sizeL` dominates the depth,
so the wrapper `walkNode` (fuel `sizeL children + 1`) computes the
unbounded walk of the source. -/
theorem walkNodeF_fuel_stable (fuel : Nat) :
    ∀ (fuel' : Nat) (cfg : Config) (dp : String) (children : List FSTree)
      (rules : List String), sizeL children < fuel → sizeL children < fuel' →
      walkNodeF fuel cfg dp children rules = walkNodeF fuel' cfg dp children rules := by
  induction fuel with
  | zero => intro fuel' cfg dp children rules h _; exact absurd h (Nat.not_lt_zero _)
  | succ n ih =>
    intro fuel' cfg dp children rules hn hf
    cases fuel' with
    | zero => exact absurd hf (Nat.not_lt_zero _)
    | succ m =>
      rw [walkNodeF_succ, walkNodeF_succ]
      have haux : ∀ (R : List String) (l : List FSTree),
          (∀ t ∈ l, sizeT t ≤ sizeL children) → ∀ acc : WalkResult,
          l.foldl (walkStep n cfg dp R) acc = l.foldl (walkStep m cfg dp R) acc := by
        intro R l
        induction l with
        | nil => intro _ acc; rfl
        | cons t ts iht =>
          intro hb acc
          rw [List.foldl_cons, List.foldl_cons]
          have hstep : walkStep n cfg dp R acc t = walkStep m cfg dp R acc t := by
            cases t with
            | file nm c => rfl
            | dir d dc =>
              rw [walkStep, walkStep]
              split
              · have hsz : sizeT (FSTree.dir d dc) ≤ sizeL children :=
                  hb _ (List.mem_cons_self _ _)
                rw [sizeT] at hsz
                have hdc_n : sizeL dc < n := by omega
                have hdc_m : sizeL dc < m := by omega
                rw [ih m cfg (pathJoin dp d) dc acc.rules hdc_n hdc_m]
              · rfl
          rw [hstep]
          exact iht (fun t ht => hb t (List.mem_cons_of_mem _ ht)) _
      exact haux _ children (fun t ht => sizeT_le_sizeL t children ht) _

/-- The wrapper computes the stable value: `walkNodeF` at any sufficient fuel
agrees with `walkNode`. -/
theorem walkNode_eq_walkNodeF (fuel : Nat) (cfg : Config) (dp : String)
    (children : List FSTree) (rules : List String) (h : sizeL children < fuel) :
    walkNodeF fuel cfg dp children rules = walkNode cfg dp children rules :=
  walkNodeF_fuel_stable fuel (sizeL children + 1) cfg dp children rules h
    (Nat.lt_succ_self _)
